import Mathlib

/-!
Shallow embedding of the Smart B-Roll Inserter core
(`backend/app/services/matcher.py`, `timeline.py`, `broll_analysis.py`).

Times and similarity scores are modelled as rationals (`ℚ`); Python's
floating-point `sqrt` is abstracted as a parameter `sqrt : ℚ → ℚ` (only its
behaviour on `0` and positivity on positives matter for the properties
proved here).  IEEE NaN values produced by `0/0` in the vectorized matrix
computation are modelled as `none : Option ℚ`; a NaN cell fails every
`>=` comparison, which matches the `none` branch of `cellPasses` below.
Python's `round(x, n)` is modelled by `pyRound` (the half-way tie rule
differs from Python's banker's rounding, but no property proved here
depends on tie behaviour).  Python lists/dicts are modelled as Lean lists
(association lists for dicts, preserving insertion order), and Python's
stable `sort` as `List.insertionSort`, which is stable.
-/

/-- A narration (A-roll) transcript segment: `{start_time, end_time, text}`. -/
structure Seg where
  start_time : ℚ
  end_time : ℚ
  text : String
deriving DecidableEq

/-- Python `round(q, n)` modelled on rationals: round to `n` decimal places. -/
def pyRound (n : ℕ) (q : ℚ) : ℚ := (round (q * 10 ^ n) : ℤ) / (10 ^ n : ℚ)

/-- Dictionary lookup on an association list, defaulting to `d` when absent.
Models `dict[key]` at call sites where the key is known to be present. -/
def lookupD (m : List (String × String)) (k : String) (d : String) : String :=
  (((m.find? (fun p => p.1 == k)).map Prod.snd).getD d)

/-- `np.dot` of two vectors (`matcher.py` line 78). -/
def dot (v w : List ℚ) : ℚ := (List.zipWith (· * ·) v w).sum

/-- Squared L2 norm; `np.linalg.norm v = sqrt (normSq v)`. -/
def normSq (v : List ℚ) : ℚ := dot v v

/-- `SemanticMatcher._cosine_similarity` (matcher.py lines 67-85): guarded
pairwise cosine similarity; returns `0.0` when either norm is zero. -/
def cosine_similarity (sqrt : ℚ → ℚ) (v w : List ℚ) : ℚ :=
  let n1 := sqrt (normSq v)
  let n2 := sqrt (normSq w)
  if n1 = 0 ∨ n2 = 0 then 0 else dot v w / (n1 * n2)

/-- One cell of the vectorized similarity matrix built by
`SemanticMatcher._calculate_similarity_matrix` (matcher.py lines 102-107):
each embedding row is divided by its L2 norm and the matrix is the dot
product of normalized rows.  A zero-norm row makes numpy compute `0/0`,
so every cell involving that row is NaN — modelled as `none`.  There is
no zero-norm guard on this path. -/
def simCell (sqrt : ℚ → ℚ) (v w : List ℚ) : Option ℚ :=
  let n1 := sqrt (normSq v)
  let n2 := sqrt (normSq w)
  if n1 = 0 ∨ n2 = 0 then none
  else some (dot (v.map (· / n1)) (w.map (· / n2)))

/-- `SemanticMatcher._calculate_similarity_matrix`: the full
`n_segments × n_brolls` matrix of `simCell` values. -/
def calculate_similarity_matrix (sqrt : ℚ → ℚ)
    (aroll_embeddings broll_embeddings : List (List ℚ)) :
    List (List (Option ℚ)) :=
  aroll_embeddings.map (fun v => broll_embeddings.map (fun w => simCell sqrt v w))

/-- The float comparison `similarity >= threshold` on a possibly-NaN cell:
NaN compares false against everything. -/
def cellPasses (c : Option ℚ) (t : ℚ) : Bool :=
  match c with
  | some q => decide (t ≤ q)
  | none => false

/-- Substring containment on character lists (Python `sub in s`). -/
def listContainsSub (sub l : List Char) : Bool :=
  (List.range (l.length + 1)).any (fun i => sub.isPrefixOf (l.drop i))

/-- Python substring test `sub in s` (case handled by callers). -/
def strContainsSub (s sub : String) : Bool := listContainsSub sub.toList s.toList

/-- The fixed keyword vocabulary of `SemanticMatcher._generate_reason`
(matcher.py lines 142-147). -/
def keywords_to_check : List String :=
  ["product", "demo", "demonstration", "app", "application",
   "office", "work", "working", "code", "coding", "programming",
   "team", "collaboration", "data", "analytics", "visualization",
   "typing", "keyboard", "interface", "screen"]

/-- `SemanticMatcher._generate_reason` (matcher.py lines 111-157). -/
def generate_reason (aroll_text broll_description : String) (similarity : ℚ) : String :=
  let strength : String :=
    if (85 : ℚ)/100 ≤ similarity then "highly relevant"
    else if (75 : ℚ)/100 ≤ similarity then "relevant"
    else "somewhat relevant"
  let al := aroll_text.toLower
  let bl := broll_description.toLower
  let common := keywords_to_check.filter (fun k => strContainsSub al k && strContainsSub bl k)
  match common with
  | theme :: _ => strength.capitalize ++ " match: both mention \x27" ++ theme ++ "\x27"
  | [] => strength.capitalize ++ " semantic match"

/-- A `potential_matches` record of `SemanticMatcher._select_best_matches`
(matcher.py lines 188-196). -/
structure Cand where
  segment_idx : ℕ
  broll_id : String
  similarity : ℚ
  start_time : ℚ
  end_time : ℚ
  aroll_text : String
  broll_description : String
deriving DecidableEq

/-- Enumerate every `(segment, clip)` pair whose similarity cell clears the
threshold (matcher.py lines 181-196).  The matrix is accessed as a function
`sim : ℕ → ℕ → Option ℚ`; a NaN cell (`none`) never clears the threshold,
matching float comparison semantics. -/
def potentialMatches (sim : ℕ → ℕ → Option ℚ) (t : ℚ)
    (segs : List Seg) (ds : List (String × String)) : List Cand :=
  segs.enum.flatMap (fun p =>
    ds.enum.flatMap (fun b =>
      match sim p.1 b.1 with
      | some q =>
          if t ≤ q then
            [⟨p.1, b.2.1, q, p.2.start_time, p.2.end_time, p.2.text,
              lookupD ds b.2.1 ""⟩]
          else []
      | none => []))

/-- `potential_matches.sort(key=..similarity, reverse=True)`: stable sort by
similarity descending (Python's sort is stable; `insertionSort` is stable). -/
def sortBySimDesc (l : List Cand) : List Cand :=
  l.insertionSort (fun a b => b.similarity ≤ a.similarity)

/-- `matches.sort(key=..start_time)`: stable sort chronologically. -/
def sortByStart (l : List Cand) : List Cand :=
  l.insertionSort (fun a b => a.start_time ≤ b.start_time)

/-- The mutable selection state of `_select_best_matches`
(matcher.py lines 206-208): `acc` is the Python `matches` list (accepted
candidates in acceptance order), `selected` the set of used segment indices,
`used` the per-clip usage counts, and `lastTime` the running last insertion
time (initialized to `-10.0`). -/
structure SelState where
  acc : List Cand
  selected : List ℕ
  used : String → ℕ
  lastTime : ℚ

/-- The initial selection state (matcher.py lines 206-208). -/
def initSelState : SelState := ⟨[], [], fun _ => 0, -10⟩

/-- One iteration of Pass 1 (matcher.py lines 210-235).  The `break` once
`max_insertions` is reached is modelled as a no-op for the remaining
candidates, which is behaviourally identical since the accepted count never
decreases. -/
def pass1Step (maxIns : ℕ) (st : SelState) (c : Cand) : SelState :=
  if maxIns ≤ st.acc.length then st
  else if c.segment_idx ∈ st.selected then st
  else if 2 ≤ st.used c.broll_id then st
  else if c.start_time - st.lastTime < 5 then st
  else
    ⟨st.acc ++ [c], c.segment_idx :: st.selected,
     fun x => if x = c.broll_id then st.used c.broll_id + 1 else st.used x,
     c.start_time⟩

/-- One iteration of Pass 2, the relaxation walk (matcher.py lines 240-257).
It stops once `min_insertions` is reached, re-checks that the segment is
unused and a relaxed 3.0-second gap, but — unlike Pass 1 — performs no
per-clip reuse-cap check. -/
def pass2Step (minIns : ℕ) (st : SelState) (c : Cand) : SelState :=
  if minIns ≤ st.acc.length then st
  else if c.segment_idx ∈ st.selected then st
  else if c.start_time - st.lastTime < 3 then st
  else
    ⟨st.acc ++ [c], c.segment_idx :: st.selected,
     fun x => if x = c.broll_id then st.used c.broll_id + 1 else st.used x,
     c.start_time⟩

/-- Pass 2 with the `min_insertions` early stop removed: the relaxed walk
running to exhaustion ("whatever it found"). -/
def pass2StepFull (st : SelState) (c : Cand) : SelState :=
  if c.segment_idx ∈ st.selected then st
  else if c.start_time - st.lastTime < 3 then st
  else
    ⟨st.acc ++ [c], c.segment_idx :: st.selected,
     fun x => if x = c.broll_id then st.used c.broll_id + 1 else st.used x,
     c.start_time⟩

/-- The sorted candidate list both passes walk (matcher.py line 199). -/
def sortedCands (sim : ℕ → ℕ → Option ℚ) (t : ℚ)
    (segs : List Seg) (ds : List (String × String)) : List Cand :=
  sortBySimDesc (potentialMatches sim t segs ds)

/-- The selection state after Pass 1 (matcher.py lines 210-235). -/
def selRun1 (sim : ℕ → ℕ → Option ℚ) (t : ℚ) (maxIns : ℕ)
    (segs : List Seg) (ds : List (String × String)) : SelState :=
  (sortedCands sim t segs ds).foldl (pass1Step maxIns) initSelState

/-- The selection state after the conditional Pass 2 relaxation
(matcher.py lines 237-257). -/
def selRun2 (sim : ℕ → ℕ → Option ℚ) (t : ℚ) (minIns maxIns : ℕ)
    (segs : List Seg) (ds : List (String × String)) : SelState :=
  let st1 := selRun1 sim t maxIns segs ds
  if st1.acc.length < minIns then
    (sortedCands sim t segs ds).foldl (pass2Step minIns) st1
  else st1

/-- `SemanticMatcher._select_best_matches` (matcher.py lines 159-262):
Pass 1, conditional Pass 2, then chronological output sort. -/
def selectBestMatches (sim : ℕ → ℕ → Option ℚ) (t : ℚ) (minIns maxIns : ℕ)
    (segs : List Seg) (ds : List (String × String)) : List Cand :=
  sortByStart (selRun2 sim t minIns maxIns segs ds).acc

/-- The selector variant whose Pass 2 runs to exhaustion (no
`min_insertions` stop): what the relaxed walk finds in total. -/
def selectBestMatchesFull (sim : ℕ → ℕ → Option ℚ) (t : ℚ) (maxIns : ℕ)
    (segs : List Seg) (ds : List (String × String)) : List Cand :=
  sortByStart ((sortedCands sim t segs ds).foldl pass2StepFull
    (selRun1 sim t maxIns segs ds)).acc

/-- How many accepted insertions use a given clip id. -/
def countClip (l : List Cand) (id : String) : ℕ :=
  (l.filter (fun c => c.broll_id == id)).length

/-- A formatted output record of `SemanticMatcher.match`
(matcher.py lines 317-327). -/
structure FormattedMatch where
  start_sec : ℚ
  duration_sec : ℚ
  broll_id : String
  confidence : ℚ
  reason : String
deriving DecidableEq

/-- The similarity-matrix access used by `SemanticMatcher.match`
(matcher.py lines 290-301): embed the segment texts and the clip
descriptions (in `broll_ids` order) with the injected provider `embed`,
then take `simCell` of the embedding rows.  Out-of-range indices give
`none`; `match` only ever queries in-range cells. -/
def matchSim (sqrt : ℚ → ℚ) (embed : String → List ℚ)
    (segs : List Seg) (ds : List (String × String)) : ℕ → ℕ → Option ℚ :=
  fun i j =>
    match ((segs.map (fun s => s.text)).map embed).get? i,
          ((ds.map (fun b => lookupD ds b.1 "")).map embed).get? j with
    | some v, some w => simCell sqrt v w
    | _, _ => none

/-- The fallback segment used to model a list index that is always in
range (never actually reached). -/
def dummySeg : Seg := ⟨0, 0, ""⟩

/-- Output formatting of one selected candidate (matcher.py lines 313-327):
times come from `aroll_segments[match.segment_idx]` rounded to 2 decimals,
confidence is the similarity rounded to 3 decimals. -/
def formatMatch (segs : List Seg) (m : Cand) : FormattedMatch :=
  let seg := (segs.get? m.segment_idx).getD dummySeg
  ⟨pyRound 2 seg.start_time,
   pyRound 2 (seg.end_time - seg.start_time),
   m.broll_id,
   pyRound 3 m.similarity,
   generate_reason m.aroll_text m.broll_description m.similarity⟩

/-- `SemanticMatcher.match` (matcher.py lines 264-330), with the embedding
provider injected as a total function (the provider succeeding with a 1:1
positional correspondence).  Raising `ValueError` is modelled as
`Except.error` with the Python message. -/
def semanticMatch (sqrt : ℚ → ℚ) (embed : String → List ℚ)
    (t : ℚ) (minIns maxIns : ℕ)
    (segs : List Seg) (ds : List (String × String)) :
    Except String (List FormattedMatch) :=
  if segs.isEmpty then .error "A-roll segments list is empty"
  else if ds.isEmpty then .error "B-roll descriptions dictionary is empty"
  else
    .ok ((selectBestMatches (matchSim sqrt embed segs ds) t minIns maxIns
      segs ds).map (formatMatch segs))

/-- A B-roll insertion as consumed by `TimelinePlanner`
(timeline.py lines 55-57, 85-87): a `matches.json` record. -/
structure Ins where
  start_sec : ℚ
  duration_sec : ℚ
  broll_id : String
  reason : String
  confidence : ℚ
deriving DecidableEq

/-- A timeline interval (timeline.py lines 61-93): either an `a_roll`
(NARRATION) interval carrying a transcript, or a `b_roll` (CUTAWAY)
interval carrying source clip, reason, confidence, and the best-effort
matching narration segment. -/
inductive TLSeg
  | aroll (start_time end_time duration : ℚ) (transcript : String)
  | broll (start_time end_time duration : ℚ) (source : String)
      (reason : String) (confidence : ℚ) (matching : Option Seg)
deriving DecidableEq

/-- The `start_time` field of a timeline interval. -/
def TLSeg.startT : TLSeg → ℚ
  | .aroll s _ _ _ => s
  | .broll s _ _ _ _ _ _ => s

/-- The `end_time` field of a timeline interval. -/
def TLSeg.endT : TLSeg → ℚ
  | .aroll _ e _ _ => e
  | .broll _ e _ _ _ _ _ => e

/-- `TimelinePlanner._get_transcript_for_range` (timeline.py lines 125-151):
space-join the text of every segment overlapping the range, with inclusive
boundary tests. -/
def transcriptForRange (segs : List Seg) (s e : ℚ) : String :=
  String.intercalate " "
    ((segs.filter (fun sg => ¬ (sg.end_time < s ∨ e < sg.start_time))).map
      (fun sg => sg.text))

/-- `sorted(broll_matches, key=..start_sec)` (timeline.py line 45): stable. -/
def sortIns (l : List Ins) : List Ins :=
  l.insertionSort (fun a b => a.start_sec ≤ b.start_sec)

/-- One iteration of the chronological walk of
`TimelinePlanner._create_timeline_segments` (timeline.py lines 55-95):
optionally emit the narration interval before the insertion, then the
cutaway interval, then advance the cursor to the cutaway's end. -/
def tlStep (segs : List Seg) (st : List TLSeg × ℚ) (ins : Ins) : List TLSeg × ℚ :=
  let cur := st.2
  let s := ins.start_sec
  let d := ins.duration_sec
  let tl1 :=
    if cur < s then
      st.1 ++ [TLSeg.aroll (pyRound 2 cur) (pyRound 2 s) (pyRound 2 (s - cur))
        (transcriptForRange segs cur s)]
    else st.1
  let m := segs.find? (fun sg => |sg.start_time - s| < (1 : ℚ)/10)
  (tl1 ++ [TLSeg.broll (pyRound 2 s) (pyRound 2 (s + d)) (pyRound 2 d)
     ins.broll_id ins.reason ins.confidence m],
   s + d)

/-- The total narration duration `aroll_segments[-1]["end_time"]`
(timeline.py line 51). -/
def tlTotal (segs : List Seg) : ℚ :=
  ((segs.getLast?).map (fun s => s.end_time)).getD 0

/-- `TimelinePlanner._create_timeline_segments` (timeline.py lines 27-123):
sort the insertions, walk them chronologically, then append the trailing
narration remainder if the cursor is short of the total duration, and —
in addition — append a full-span narration interval when there were no
insertions at all. -/
def createTimelineSegments (segs : List Seg) (matchesIn : List Ins) : List TLSeg :=
  let insertions := sortIns matchesIn
  if segs.isEmpty then []
  else
    let total := tlTotal segs
    let st := insertions.foldl (tlStep segs) ([], 0)
    let tl2 :=
      if st.2 < total then
        st.1 ++ [TLSeg.aroll (pyRound 2 st.2) (pyRound 2 total)
          (pyRound 2 (total - st.2)) (transcriptForRange segs st.2 total)]
      else st.1
    if insertions.isEmpty then
      tl2 ++ [TLSeg.aroll 0 (pyRound 2 total) (pyRound 2 total)
        (transcriptForRange segs 0 total)]
    else tl2

/-- The per-clip fallback of `BRollAnalyzer.analyze_brolls`
(broll_analysis.py lines 200-207): a successful analysis yields its
description, a raised exception yields the generic placeholder. -/
def describeOr (id : String) : Except String String → String
  | .ok d => d
  | .error _ => "B-roll clip " ++ id

/-- `BRollAnalyzer.analyze_brolls` (broll_analysis.py lines 183-209), with
the per-clip analysis `BRollAnalyzer.analyze_broll` injected as a fallible
function `analyze` (its metadata normalization may raise on malformed
metadata).  Each clip is processed inside its own try/except, so a failure
is isolated to that clip. -/
def analyze_brolls {α : Type} (analyze : String → α → Except String String)
    (batch : List (String × α)) : List (String × String) :=
  batch.map (fun p => (p.1, describeOr p.1 (analyze p.1 p.2)))

/-- A list of accepted candidates whose start times, read in acceptance
order, each exceed the previous one (starting from `l0`) by at least `g`. -/
def gapChain (g : ℚ) : ℚ → List Cand → Prop
  | _, [] => True
  | l0, c :: cs => l0 + g ≤ c.start_time ∧ gapChain g c.start_time cs

/-- The start time of the last accepted candidate, or `d` if none. -/
def lastStart (d : ℚ) (l : List Cand) : ℚ :=
  ((l.getLast?).map (fun c => c.start_time)).getD d

lemma lastStart_nil (d : ℚ) : lastStart d [] = d := rfl

lemma lastStart_cons (d : ℚ) (x : Cand) (xs : List Cand) :
    lastStart d (x :: xs) = lastStart x.start_time xs := by
  cases xs <;> simp [lastStart, List.getLast?]

lemma lastStart_append_singleton (d : ℚ) (xs : List Cand) (c : Cand) :
    lastStart d (xs ++ [c]) = c.start_time := by
  simp [lastStart]

lemma gapChain_cons (g l0 : ℚ) (c : Cand) (cs : List Cand) :
    gapChain g l0 (c :: cs) ↔ l0 + g ≤ c.start_time ∧ gapChain g c.start_time cs :=
  Iff.rfl

lemma gapChain_append_singleton (g : ℚ) (xs : List Cand) (c : Cand) :
    ∀ l0, gapChain g l0 (xs ++ [c]) ↔
      gapChain g l0 xs ∧ lastStart l0 xs + g ≤ c.start_time := by
  induction xs with
  | nil => intro l0; simp [gapChain, gapChain_cons, lastStart_nil]
  | cons x xs ih =>
      intro l0
      simp only [List.cons_append, gapChain_cons, ih x.start_time, lastStart_cons]
      tauto

lemma gapChain_le_of_mem {g : ℚ} (hg : 0 ≤ g) :
    ∀ (l : List Cand) (l0 : ℚ), gapChain g l0 l →
      ∀ x ∈ l, l0 + g ≤ x.start_time := by
  intro l
  induction l with
  | nil => simp
  | cons c cs ih =>
      intro l0 h x hx
      rcases List.mem_cons.mp hx with hx | hx
      · exact hx ▸ h.1
      · have h1 := ih c.start_time h.2 x hx
        have h2 := h.1
        linarith

lemma gapChain_pairwise {g : ℚ} (hg : 0 ≤ g) :
    ∀ (l : List Cand) (l0 : ℚ), gapChain g l0 l →
      l.Pairwise (fun a b => a.start_time + g ≤ b.start_time) := by
  intro l
  induction l with
  | nil => intro l0 _; exact List.Pairwise.nil
  | cons c cs ih =>
      intro l0 h
      exact List.Pairwise.cons (gapChain_le_of_mem hg cs c.start_time h.2)
        (ih c.start_time h.2)

/-- Each step of either pass leaves the accepted list alone or appends the
current candidate at the end. -/
def StepAppends (step : SelState → Cand → SelState) : Prop :=
  ∀ st c, (step st c).acc = st.acc ∨ (step st c).acc = st.acc ++ [c]

lemma pass1Step_appends (maxIns : ℕ) : StepAppends (pass1Step maxIns) := by
  intro st c
  unfold pass1Step
  split
  · exact Or.inl rfl
  split
  · exact Or.inl rfl
  split
  · exact Or.inl rfl
  split
  · exact Or.inl rfl
  · exact Or.inr rfl

lemma pass2Step_appends (minIns : ℕ) : StepAppends (pass2Step minIns) := by
  intro st c
  unfold pass2Step
  split
  · exact Or.inl rfl
  split
  · exact Or.inl rfl
  split
  · exact Or.inl rfl
  · exact Or.inr rfl

lemma pass2StepFull_appends : StepAppends pass2StepFull := by
  intro st c
  unfold pass2StepFull
  split
  · exact Or.inl rfl
  split
  · exact Or.inl rfl
  · exact Or.inr rfl

lemma foldl_acc_subset {step : SelState → Cand → SelState} (hstep : StepAppends step) :
    ∀ (l : List Cand) (st : SelState) (x : Cand),
      x ∈ (l.foldl step st).acc → x ∈ st.acc ∨ x ∈ l := by
  intro l
  induction l with
  | nil => intro st x hx; exact Or.inl hx
  | cons c cs ih =>
      intro st x hx
      rw [List.foldl_cons] at hx
      rcases ih (step st c) x hx with h | h
      · rcases hstep st c with he | he
        · rw [he] at h; exact Or.inl h
        · rw [he, List.mem_append] at h
          rcases h with h | h
          · exact Or.inl h
          · simp at h; subst h; exact Or.inr (List.mem_cons_self _ _)
      · exact Or.inr (List.mem_cons_of_mem _ h)

lemma foldl_acc_length_mono {step : SelState → Cand → SelState} (hstep : StepAppends step) :
    ∀ (l : List Cand) (st : SelState),
      st.acc.length ≤ (l.foldl step st).acc.length := by
  intro l
  induction l with
  | nil => intro st; exact le_refl _
  | cons c cs ih =>
      intro st
      rw [List.foldl_cons]
      refine le_trans ?_ (ih (step st c))
      rcases hstep st c with he | he <;> simp [he]

lemma countClip_append_singleton (l : List Cand) (c : Cand) (id : String) :
    countClip (l ++ [c]) id =
      countClip l id + (if c.broll_id = id then 1 else 0) := by
  simp only [countClip, List.filter_append]
  by_cases h : c.broll_id = id <;> simp [h]

/-- The Pass-1 loop invariant: accepted starts form a 5-second gap chain from
`-10.0`, `lastTime` tracks the last accepted start, `used` counts exactly the
accepted uses of each clip and never exceeds 2, and the accepted count never
exceeds `max_insertions`. -/
def pass1Inv (maxIns : ℕ) (st : SelState) : Prop :=
  gapChain 5 (-10) st.acc ∧
  st.lastTime = lastStart (-10) st.acc ∧
  (∀ id, countClip st.acc id = st.used id ∧ st.used id ≤ 2) ∧
  st.acc.length ≤ maxIns

lemma pass1Inv_init (maxIns : ℕ) : pass1Inv maxIns initSelState := by
  refine ⟨trivial, rfl, ?_, by simp [initSelState]⟩
  intro id
  exact ⟨rfl, Nat.zero_le 2⟩

lemma pass1Inv_step (maxIns : ℕ) (st : SelState) (c : Cand)
    (h : pass1Inv maxIns st) : pass1Inv maxIns (pass1Step maxIns st c) := by
  obtain ⟨hchain, hlast, hused, hlen⟩ := h
  unfold pass1Step
  split
  · exact ⟨hchain, hlast, hused, hlen⟩
  split
  · exact ⟨hchain, hlast, hused, hlen⟩
  split
  · exact ⟨hchain, hlast, hused, hlen⟩
  split
  · exact ⟨hchain, hlast, hused, hlen⟩
  rename_i hmax hseg hcap hgap
  refine ⟨?_, ?_, ?_, ?_⟩
  · rw [gapChain_append_singleton]
    refine ⟨hchain, ?_⟩
    rw [← hlast]
    linarith [not_lt.mp hgap]
  · simp [lastStart_append_singleton]
  · intro id
    rcases (hused id) with ⟨hc, hb⟩
    by_cases hid : id = c.broll_id
    · subst hid
      rw [countClip_append_singleton]
      refine ⟨by simp [hc], by simp; omega⟩
    · have h1 : ¬ c.broll_id = id := fun hh => hid hh.symm
      rw [countClip_append_singleton]
      constructor
      · simp only [if_neg h1, if_neg hid, add_zero]
        exact hc
      · simp only [if_neg hid]
        exact hb
  · rw [List.length_append]
    simp only [List.length_singleton]
    omega

lemma pass1Inv_fold (maxIns : ℕ) :
    ∀ (l : List Cand) (st : SelState), pass1Inv maxIns st →
      pass1Inv maxIns (l.foldl (pass1Step maxIns) st) := by
  intro l
  induction l with
  | nil => intro st h; exact h
  | cons c cs ih =>
      intro st h
      rw [List.foldl_cons]
      exact ih _ (pass1Inv_step maxIns st c h)

lemma selRun1_inv (sim : ℕ → ℕ → Option ℚ) (t : ℚ) (maxIns : ℕ)
    (segs : List Seg) (ds : List (String × String)) :
    pass1Inv maxIns (selRun1 sim t maxIns segs ds) :=
  pass1Inv_fold maxIns _ _ (pass1Inv_init maxIns)

/-- Pass 2 only appends: the result extends the incoming accepted list with
additions that form a 3-second gap chain from the incoming `lastTime`, and
`lastTime` ends at the last addition's start. -/
lemma pass2_adds (minIns : ℕ) :
    ∀ (l : List Cand) (st : SelState),
      ∃ adds, (l.foldl (pass2Step minIns) st).acc = st.acc ++ adds ∧
        gapChain 3 st.lastTime adds ∧
        (l.foldl (pass2Step minIns) st).lastTime = lastStart st.lastTime adds := by
  intro l
  induction l with
  | nil =>
      intro st
      exact ⟨[], by simp, trivial, by simp [lastStart_nil]⟩
  | cons c cs ih =>
      intro st
      rw [List.foldl_cons]
      by_cases h1 : minIns ≤ st.acc.length
      · have hs : pass2Step minIns st c = st := by
          unfold pass2Step; rw [if_pos h1]
        rw [hs]; exact ih st
      · by_cases h2 : c.segment_idx ∈ st.selected
        · have hs : pass2Step minIns st c = st := by
            unfold pass2Step; rw [if_neg h1, if_pos h2]
          rw [hs]; exact ih st
        · by_cases h3 : c.start_time - st.lastTime < 3
          · have hs : pass2Step minIns st c = st := by
              unfold pass2Step; rw [if_neg h1, if_neg h2, if_pos h3]
            rw [hs]; exact ih st
          · have hs : pass2Step minIns st c =
                ⟨st.acc ++ [c], c.segment_idx :: st.selected,
                 fun x => if x = c.broll_id then st.used c.broll_id + 1 else st.used x,
                 c.start_time⟩ := by
              unfold pass2Step; rw [if_neg h1, if_neg h2, if_neg h3]
            obtain ⟨adds, he, hg, hl⟩ := ih (pass2Step minIns st c)
            refine ⟨c :: adds, ?_, ?_, ?_⟩
            · rw [he, hs]; simp
            · rw [gapChain_cons]
              exact ⟨by linarith [not_lt.mp h3], by rw [hs] at hg; exact hg⟩
            · rw [hl, hs, lastStart_cons]

/-- Pass 2 stops adding at `min_insertions`: the accepted count after Pass 2
never exceeds `max min_insertions (incoming count)`. -/
lemma pass2_len_bound (minIns : ℕ) :
    ∀ (l : List Cand) (st : SelState),
      (l.foldl (pass2Step minIns) st).acc.length ≤ max minIns st.acc.length := by
  intro l
  induction l with
  | nil => intro st; exact le_max_right _ _
  | cons c cs ih =>
      intro st
      rw [List.foldl_cons]
      rcases pass2Step_appends minIns st c with he | he
      · refine le_trans (ih (pass2Step minIns st c)) ?_
        rw [he]
      · by_cases h1 : minIns ≤ st.acc.length
        · exfalso
          have : (pass2Step minIns st c).acc = st.acc := by
            unfold pass2Step; rw [if_pos h1]
          rw [this] at he
          simp at he
        · refine le_trans (ih (pass2Step minIns st c)) ?_
          rw [he, List.length_append, List.length_singleton]
          have : st.acc.length + 1 ≤ minIns := by omega
          omega

/-- If the Pass-2 walk finishes still short of `min_insertions`, its early
stop never fired, so it computed exactly the exhaustive relaxed walk. -/
lemma pass2_break_eq (minIns : ℕ) :
    ∀ (l : List Cand) (st : SelState),
      (l.foldl (pass2Step minIns) st).acc.length < minIns →
      l.foldl (pass2Step minIns) st = l.foldl pass2StepFull st := by
  intro l
  induction l with
  | nil => intro st _; rfl
  | cons c cs ih =>
      intro st hlen
      rw [List.foldl_cons] at hlen ⊢
      have hmono := foldl_acc_length_mono (pass2Step_appends minIns) cs (pass2Step minIns st c)
      have hstlt : st.acc.length < minIns := by
        have h1 := foldl_acc_length_mono (pass2Step_appends minIns) cs (pass2Step minIns st c)
        rcases pass2Step_appends minIns st c with he | he
        · have h2 := congrArg List.length he
          omega
        · have h2 := congrArg List.length he
          rw [List.length_append, List.length_singleton] at h2
          omega
      have hstep : pass2Step minIns st c = pass2StepFull st c := by
        unfold pass2Step pass2StepFull
        rw [if_neg (by omega)]
      rw [List.foldl_cons, ← hstep]
      exact ih (pass2Step minIns st c) hlen


/-- Every enumerated candidate records a genuine segment (at its index, with
its timing and text copied verbatim) and a similarity clearing the threshold. -/
lemma mem_potentialMatches {sim : ℕ → ℕ → Option ℚ} {t : ℚ}
    {segs : List Seg} {ds : List (String × String)} {m : Cand}
    (h : m ∈ potentialMatches sim t segs ds) :
    segs.get? m.segment_idx = some ⟨m.start_time, m.end_time, m.aroll_text⟩ ∧
      t ≤ m.similarity := by
  unfold potentialMatches at h
  rw [List.mem_flatMap] at h
  obtain ⟨p, hp, h⟩ := h
  rw [List.mem_flatMap] at h
  obtain ⟨b, hb, h⟩ := h
  obtain ⟨i, seg⟩ := p
  have hget : segs[i]? = some seg := List.mk_mem_enum_iff_getElem?.mp hp
  split at h
  · rename_i q hq
    split at h
    · rename_i hle
      simp only [List.mem_singleton] at h
      subst h
      refine ⟨?_, hle⟩
      rw [List.get?_eq_getElem?, hget]
    · exact absurd h (List.not_mem_nil m)
  · exact absurd h (List.not_mem_nil m)

/-- Every selected match is one of the enumerated threshold-clearing
candidates. -/
lemma mem_selectBestMatches {sim : ℕ → ℕ → Option ℚ} {t : ℚ}
    {minIns maxIns : ℕ} {segs : List Seg} {ds : List (String × String)} {m : Cand}
    (h : m ∈ selectBestMatches sim t minIns maxIns segs ds) :
    m ∈ potentialMatches sim t segs ds := by
  unfold selectBestMatches sortByStart at h
  rw [List.mem_insertionSort] at h
  have hsc : m ∈ sortedCands sim t segs ds → m ∈ potentialMatches sim t segs ds := by
    intro hm
    unfold sortedCands sortBySimDesc at hm
    rwa [List.mem_insertionSort] at hm
  have hst1 : m ∈ (selRun1 sim t maxIns segs ds).acc → m ∈ potentialMatches sim t segs ds := by
    intro hm
    unfold selRun1 at hm
    rcases foldl_acc_subset (pass1Step_appends maxIns) _ _ _ hm with h0 | h0
    · exact absurd h0 (List.not_mem_nil m)
    · exact hsc h0
  unfold selRun2 at h
  dsimp only at h
  split at h
  · rcases foldl_acc_subset (pass2Step_appends minIns) _ _ _ h with h0 | h0
    · exact hst1 h0
    · exact hsc h0
  · exact hst1 h

/-- Example relevance matrix: one clip column, three segment rows with
similarities 0.9, 0.8, 0.7. -/
def exSim : ℕ → ℕ → Option ℚ := fun i _ => [(9 : ℚ)/10, 4/5, 7/10].get? i

/-- Example narration segments at 0s, 10s and 20s (well spaced). -/
def exSegs : List Seg := [⟨0, 1, "s0"⟩, ⟨10, 11, "s1"⟩, ⟨20, 21, "s2"⟩]

/-- Example single-clip description mapping. -/
def exDs : List (String × String) := [("c1", "d1")]

/-- C1 (counterexample): with three well-spaced segments all matching the
single clip `c1` above threshold and `min_insertions = 3`, Pass 1 accepts
`c1` twice (cap), leaving only 2 < 3 insertions, and Pass 2 — which never
re-checks the per-clip cap — accepts `c1` a third time: `c1` appears in 3
accepted insertions, violating the claimed cap of 2. -/
theorem reuse_cap_violated_cex :
    2 < countClip (selectBestMatches exSim (1/2) 3 6 exSegs exDs) "c1" := by
  norm_num [selectBestMatches, selRun2, selRun1, sortedCands, potentialMatches,
    sortBySimDesc, sortByStart, List.insertionSort, List.orderedInsert,
    pass1Step, pass2Step, initSelState, lookupD, exSim, exSegs, exDs, countClip,
    List.enum, List.enumFrom, List.flatMap, List.find?]

/-- C1 (amended): no `clip_id` appears in more than 2 insertions accepted by
Pass 1; the reuse cap is enforced only there, for Pass 2 omits the check, so
the final output may repeat a clip more than twice. -/
theorem pass1_reuse_cap (sim : ℕ → ℕ → Option ℚ) (t : ℚ) (maxIns : ℕ)
    (segs : List Seg) (ds : List (String × String)) (id : String) :
    countClip (selRun1 sim t maxIns segs ds).acc id ≤ 2 := by
  obtain ⟨-, -, hused, -⟩ := selRun1_inv sim t maxIns segs ds
  rcases hused id with ⟨hc, hb⟩
  rw [hc]
  exact hb

/-- C4: any two distinct Pass-1 acceptances start at least 5.0 seconds
apart, and the Pass-2 additions extend the Pass-1 list with each addition
starting at least 3.0 seconds after the running last-insertion time at the
moment it is accepted (the previous addition's start, or Pass 1's final
`lastTime` for the first addition). -/
theorem spacing_floors (sim : ℕ → ℕ → Option ℚ) (t : ℚ) (minIns maxIns : ℕ)
    (segs : List Seg) (ds : List (String × String)) :
    (selRun1 sim t maxIns segs ds).acc.Pairwise
      (fun a b => 5 ≤ |a.start_time - b.start_time|) ∧
    ∃ adds, (selRun2 sim t minIns maxIns segs ds).acc =
        (selRun1 sim t maxIns segs ds).acc ++ adds ∧
      gapChain 3 (selRun1 sim t maxIns segs ds).lastTime adds := by
  constructor
  · obtain ⟨hchain, -, -, -⟩ := selRun1_inv sim t maxIns segs ds
    refine List.Pairwise.imp ?_ (gapChain_pairwise (by norm_num) _ _ hchain)
    intro a b hab
    rw [abs_sub_comm]
    refine le_trans ?_ (le_abs_self _)
    linarith
  · unfold selRun2
    dsimp only
    split
    · obtain ⟨adds, he, hg, -⟩ := pass2_adds minIns (sortedCands sim t segs ds)
        (selRun1 sim t maxIns segs ds)
      exact ⟨adds, he, hg⟩
    · exact ⟨[], by simp, trivial⟩

/-- C5: given `min_insertions ≤ max_insertions`, the selector returns at
most `max_insertions` insertions, and it returns at least `min_insertions`
unless even the exhaustive relaxed walk finds fewer — in which case it
returns exactly what that walk found. -/
theorem sel_count_bound (sim : ℕ → ℕ → Option ℚ) (t : ℚ) (minIns maxIns : ℕ)
    (segs : List Seg) (ds : List (String × String)) (h : minIns ≤ maxIns) :
    (selectBestMatches sim t minIns maxIns segs ds).length ≤ maxIns ∧
    (minIns ≤ (selectBestMatches sim t minIns maxIns segs ds).length ∨
      selectBestMatches sim t minIns maxIns segs ds =
        selectBestMatchesFull sim t maxIns segs ds) := by
  have hlen1 : (selRun1 sim t maxIns segs ds).acc.length ≤ maxIns :=
    (selRun1_inv sim t maxIns segs ds).2.2.2
  have hlensel : (selectBestMatches sim t minIns maxIns segs ds).length =
      (selRun2 sim t minIns maxIns segs ds).acc.length := by
    unfold selectBestMatches sortByStart
    exact List.length_insertionSort _ _
  constructor
  · rw [hlensel]
    unfold selRun2
    dsimp only
    split
    · refine le_trans (pass2_len_bound minIns _ _) ?_
      exact max_le h hlen1
    · exact hlen1
  · by_cases hge : minIns ≤ (selectBestMatches sim t minIns maxIns segs ds).length
    · exact Or.inl hge
    · right
      rw [hlensel] at hge
      push_neg at hge
      unfold selectBestMatches selectBestMatchesFull
      unfold selRun2 at hge ⊢
      dsimp only at hge ⊢
      split at hge
      · rename_i hlt
        rw [if_pos hlt]
        rw [pass2_break_eq minIns _ _ hge]
      · omega

/-- Witness for `sel_count_bound` at the concrete example inputs. -/
theorem sel_count_bound_witness :
    (selectBestMatches exSim (1/2) 3 6 exSegs exDs).length ≤ 6 ∧
    (3 ≤ (selectBestMatches exSim (1/2) 3 6 exSegs exDs).length ∨
      selectBestMatches exSim (1/2) 3 6 exSegs exDs =
        selectBestMatchesFull exSim (1/2) 6 exSegs exDs) :=
  sel_count_bound exSim (1/2) 3 6 exSegs exDs (by norm_num)

/-- C3: at the zero-norm A-roll embedding `[0,0]`, the vectorized matrix
actually used by `match` yields an undefined (NaN) cell — not `0.0` —
because `_calculate_similarity_matrix` divides by the zero norm with no
guard; the guarded helper `_cosine_similarity`, which `match` never calls,
does return `0.0` there. -/
theorem zero_norm_matrix_nan :
    calculate_similarity_matrix (fun q => q) [[(0 : ℚ), 0]] [[3, 4]] = [[none]] ∧
    (calculate_similarity_matrix (fun q => q) [[(0 : ℚ), 0]] [[3, 4]] ≠
      [[some 0]]) ∧
    cosine_similarity (fun q => q) [(0 : ℚ), 0] [3, 4] = 0 := by
  have h1 : calculate_similarity_matrix (fun q => q) [[(0 : ℚ), 0]] [[3, 4]] =
      [[none]] := by
    norm_num [calculate_similarity_matrix, simCell, normSq, dot]
  refine ⟨h1, ?_, ?_⟩
  · rw [h1]
    simp
  · norm_num [cosine_similarity, normSq, dot]

private lemma intercalate_single (s x : String) :
    String.intercalate s [x] = x := by
  rfl

/-- C2: on one narration segment `[0, 40]` and an empty insertion list, the
walk leaves the cursor at `0 < 40`, so the trailing-remainder branch emits a
full-span narration interval, and then the separate no-insertions branch
emits a second identical one: the result has two intervals, not the single
narration interval the claim states. -/
theorem timeline_empty_ins_dup :
    createTimelineSegments [⟨0, 40, "x"⟩] [] =
      [TLSeg.aroll 0 40 40 "x", TLSeg.aroll 0 40 40 "x"] := by
  norm_num [createTimelineSegments, sortIns, List.insertionSort, tlTotal,
    tlStep, transcriptForRange, pyRound, intercalate_single]

/-- C9: `analyze_brolls` returns a description for every input clip id, in
order; a clip whose analysis raises gets the generic placeholder
`"B-roll clip <id>"` while the rest of the batch is processed normally. -/
theorem analyze_brolls_isolates {α : Type} (analyze : String → α → Except String String)
    (batch : List (String × α)) :
    ((analyze_brolls analyze batch).map Prod.fst = batch.map Prod.fst) ∧
    (∀ p ∈ batch,
      (∀ e, analyze p.1 p.2 = .error e →
        (p.1, "B-roll clip " ++ p.1) ∈ analyze_brolls analyze batch) ∧
      (∀ d, analyze p.1 p.2 = .ok d →
        (p.1, d) ∈ analyze_brolls analyze batch)) := by
  constructor
  · unfold analyze_brolls
    rw [List.map_map]
    rfl
  · intro p hp
    constructor
    · intro e he
      have : (p.1, "B-roll clip " ++ p.1) = (p.1, describeOr p.1 (analyze p.1 p.2)) := by
        rw [he]
        rfl
      rw [this]
      exact List.mem_map_of_mem _ hp
    · intro d hd
      have : (p.1, d) = (p.1, describeOr p.1 (analyze p.1 p.2)) := by
        rw [hd]
        rfl
      rw [this]
      exact List.mem_map_of_mem _ hp

/-- Example fallible per-clip analyzer: metadata `false` raises. -/
def exAnalyze : String → Bool → Except String String :=
  fun _ m => if m then .ok "desc" else .error "bad metadata"

/-- Example batch: clip `a` analyzes fine, clip `b` raises. -/
def exBatch : List (String × Bool) := [("a", true), ("b", false)]

/-- Witness for `analyze_brolls_isolates`: in the example batch the failing
clip `b` gets the placeholder while `a` keeps its description. -/
theorem analyze_brolls_isolates_witness :
    ("b", "B-roll clip b") ∈ analyze_brolls exAnalyze exBatch ∧
    ("a", "desc") ∈ analyze_brolls exAnalyze exBatch :=
  ⟨((analyze_brolls_isolates exAnalyze exBatch).2 ("b", false) (by simp [exBatch])).1
      "bad metadata" rfl,
   ((analyze_brolls_isolates exAnalyze exBatch).2 ("a", true) (by simp [exBatch])).2
      "desc" rfl⟩

/-- Whether an `Except` result is a success. -/
def exceptIsOk {ε α : Type} : Except ε α → Bool
  | .ok _ => true
  | .error _ => false

/-- All cells failing the threshold leaves no enumerated candidate. -/
lemma potentialMatches_eq_nil {sim : ℕ → ℕ → Option ℚ} {t : ℚ}
    {segs : List Seg} {ds : List (String × String)}
    (hcell : ∀ i j, i < segs.length → j < ds.length →
      cellPasses (sim i j) t = false) :
    potentialMatches sim t segs ds = [] := by
  refine List.eq_nil_iff_forall_not_mem.mpr ?_
  intro c hc
  unfold potentialMatches at hc
  rw [List.mem_flatMap] at hc
  obtain ⟨p, hp, hc⟩ := hc
  rw [List.mem_flatMap] at hc
  obtain ⟨b, hb, hc⟩ := hc
  obtain ⟨i, seg⟩ := p
  obtain ⟨j, bd⟩ := b
  have hgi : segs[i]? = some seg := List.mk_mem_enum_iff_getElem?.mp hp
  have hgj : ds[j]? = some bd := List.mk_mem_enum_iff_getElem?.mp hb
  have hi : i < segs.length := (List.getElem?_eq_some.mp hgi).1
  have hj : j < ds.length := (List.getElem?_eq_some.mp hgj).1
  have hfail := hcell i j hi hj
  split at hc
  · rename_i q hq
    split at hc
    · rename_i hle
      rw [hq] at hfail
      simp only [cellPasses, decide_eq_true_eq] at hfail
      exact absurd hle (by simpa using hfail)
    · exact List.not_mem_nil c hc
  · exact List.not_mem_nil c hc

/-- An empty candidate list makes the whole selector return `[]`. -/
lemma selectBestMatches_eq_nil {sim : ℕ → ℕ → Option ℚ} {t : ℚ}
    {minIns maxIns : ℕ} {segs : List Seg} {ds : List (String × String)}
    (hpm : potentialMatches sim t segs ds = []) :
    selectBestMatches sim t minIns maxIns segs ds = [] := by
  unfold selectBestMatches selRun2 selRun1 sortedCands sortBySimDesc sortByStart
  rw [hpm]
  simp [List.insertionSort, initSelState]

/-- C8: `SemanticMatcher.match` (with a succeeding embedding provider)
raises exactly when the segment list or the description mapping is empty;
with both non-empty, if no (segment, clip) cell clears the similarity
threshold it returns the empty insertion list, not an error. -/
theorem match_error_iff (sqrt : ℚ → ℚ) (embed : String → List ℚ) (t : ℚ)
    (minIns maxIns : ℕ) (segs : List Seg) (ds : List (String × String)) :
    (exceptIsOk (semanticMatch sqrt embed t minIns maxIns segs ds) = true ↔
      (segs ≠ [] ∧ ds ≠ [])) ∧
    (segs ≠ [] → ds ≠ [] →
      (∀ i j, i < segs.length → j < ds.length →
        cellPasses (matchSim sqrt embed segs ds i j) t = false) →
      semanticMatch sqrt embed t minIns maxIns segs ds = .ok []) := by
  constructor
  · unfold semanticMatch
    by_cases hseg : segs.isEmpty
    · rw [if_pos hseg]
      simp [exceptIsOk, List.isEmpty_iff.mp hseg]
    · rw [if_neg hseg]
      by_cases hds : ds.isEmpty
      · rw [if_pos hds]
        simp [exceptIsOk, List.isEmpty_iff.mp hds]
      · rw [if_neg hds]
        rw [List.isEmpty_iff] at hseg hds
        simp [exceptIsOk, hseg, hds]
  · intro hseg hds hcell
    unfold semanticMatch
    rw [if_neg (by rw [List.isEmpty_iff]; exact hseg),
      if_neg (by rw [List.isEmpty_iff]; exact hds)]
    rw [selectBestMatches_eq_nil (potentialMatches_eq_nil hcell)]
    rfl

/-- Example embedding provider sending every text to the unit vector. -/
def exEmbed : String → List ℚ := fun _ => [1, 0]

/-- Example single-segment narration for the `match` witnesses. -/
def exSegsB : List Seg := [⟨0, 1, "a"⟩]

/-- Example single-clip description mapping for the `match` witnesses. -/
def exDsB : List (String × String) := [("c", "d")]

/-- Witness for `match_error_iff`: with both inputs non-empty and a
threshold of 2 that no cosine similarity can reach, `match` returns the
empty insertion list rather than an error. -/
theorem match_error_iff_witness :
    semanticMatch (fun q => q) exEmbed 2 3 6 exSegsB exDsB = .ok [] :=
  (match_error_iff (fun q => q) exEmbed 2 3 6 exSegsB exDsB).2
    (by simp [exSegsB]) (by simp [exDsB])
    (by
      intro i j hi hj
      simp only [exSegsB, exDsB, List.length_singleton, Nat.lt_one_iff] at hi hj
      subst hi
      subst hj
      norm_num [matchSim, simCell, normSq, dot, cellPasses, lookupD, exEmbed,
        exSegsB, exDsB])

/-- Every formatted output of a successful `match` call is the formatting of
one selected candidate. -/
lemma semanticMatch_ok_mem {sqrt : ℚ → ℚ} {embed : String → List ℚ} {t : ℚ}
    {minIns maxIns : ℕ} {segs : List Seg} {ds : List (String × String)}
    {out : List FormattedMatch} {fm : FormattedMatch}
    (hok : semanticMatch sqrt embed t minIns maxIns segs ds = .ok out)
    (hfm : fm ∈ out) :
    ∃ m, m ∈ selectBestMatches (matchSim sqrt embed segs ds) t minIns maxIns
        segs ds ∧ fm = formatMatch segs m := by
  unfold semanticMatch at hok
  split at hok
  · exact absurd hok (by simp)
  split at hok
  · exact absurd hok (by simp)
  rw [Except.ok.injEq] at hok
  rw [← hok] at hfm
  obtain ⟨m, hm, hfmt⟩ := List.mem_map.mp hfm
  exact ⟨m, hm, hfmt.symm⟩

/-- C6: every insertion returned by `match` sits exactly on the span of the
narration segment it matched: `start_sec` is that segment's `start_time` and
`duration_sec` is its `end_time - start_time`, both up to the output's
2-decimal rounding. -/
theorem match_insertion_span (sqrt : ℚ → ℚ) (embed : String → List ℚ) (t : ℚ)
    (minIns maxIns : ℕ) (segs : List Seg) (ds : List (String × String))
    (out : List FormattedMatch) (fm : FormattedMatch)
    (hok : semanticMatch sqrt embed t minIns maxIns segs ds = .ok out)
    (hfm : fm ∈ out) :
    ∃ m ∈ selectBestMatches (matchSim sqrt embed segs ds) t minIns maxIns
        segs ds,
      ∃ seg, segs.get? m.segment_idx = some seg ∧
        m.start_time = seg.start_time ∧ m.end_time = seg.end_time ∧
        fm.broll_id = m.broll_id ∧
        fm.start_sec = pyRound 2 seg.start_time ∧
        fm.duration_sec = pyRound 2 (seg.end_time - seg.start_time) := by
  obtain ⟨m, hm, hfmt⟩ := semanticMatch_ok_mem hok hfm
  obtain ⟨hget, -⟩ := mem_potentialMatches (mem_selectBestMatches hm)
  refine ⟨m, hm, ⟨m.start_time, m.end_time, m.aroll_text⟩, hget, rfl, rfl, ?_, ?_, ?_⟩
  · rw [hfmt]
    rfl
  · rw [hfmt]
    unfold formatMatch
    rw [hget]
    rfl
  · rw [hfmt]
    unfold formatMatch
    rw [hget]
    rfl

/-- C10: every insertion of a successful `match` has `start_sec` and
`duration_sec` that are integer multiples of 0.01 and a `confidence` that is
an integer multiple of 0.001, equal to the 3-decimal rounding of a
similarity that cleared the threshold — hence within half a rounding unit
of the threshold from below. -/
theorem match_output_rounding (sqrt : ℚ → ℚ) (embed : String → List ℚ) (t : ℚ)
    (minIns maxIns : ℕ) (segs : List Seg) (ds : List (String × String))
    (out : List FormattedMatch) (fm : FormattedMatch)
    (hok : semanticMatch sqrt embed t minIns maxIns segs ds = .ok out)
    (hfm : fm ∈ out) :
    (∃ k : ℤ, fm.start_sec = (k : ℚ) / 100) ∧
    (∃ k : ℤ, fm.duration_sec = (k : ℚ) / 100) ∧
    (∃ k : ℤ, fm.confidence = (k : ℚ) / 1000) ∧
    (∃ s : ℚ, t ≤ s ∧ fm.confidence = pyRound 3 s) ∧
    t - 1/2000 < fm.confidence := by
  obtain ⟨m, hm, hfmt⟩ := semanticMatch_ok_mem hok hfm
  obtain ⟨-, hts⟩ := mem_potentialMatches (mem_selectBestMatches hm)
  subst hfmt
  refine ⟨?_, ?_, ?_, ⟨m.similarity, hts, rfl⟩, ?_⟩
  · exact ⟨round (((segs.get? m.segment_idx).getD dummySeg).start_time * 10 ^ 2),
      by norm_num [formatMatch, pyRound]⟩
  · exact ⟨round ((((segs.get? m.segment_idx).getD dummySeg).end_time -
      ((segs.get? m.segment_idx).getD dummySeg).start_time) * 10 ^ 2),
      by norm_num [formatMatch, pyRound]⟩
  · exact ⟨round (m.similarity * 10 ^ 3), by norm_num [formatMatch, pyRound]⟩
  · have h := sub_half_lt_round (m.similarity * 10 ^ 3)
    have hc : (formatMatch segs m).confidence =
        ((round (m.similarity * 10 ^ 3) : ℤ) : ℚ) / 10 ^ 3 := rfl
    rw [hc, lt_div_iff₀ (by norm_num : (0 : ℚ) < 10 ^ 3)]
    nlinarith [h, hts]

/-- The selector output on the example `match` inputs: exactly the one
candidate matching segment 0 to clip `c` with similarity 1. -/
lemma exSel_eval :
    selectBestMatches (matchSim (fun q => q) exEmbed exSegsB exDsB)
      (72/100) 3 6 exSegsB exDsB = [⟨0, "c", 1, 0, 1, "a", "d"⟩] := by
  norm_num [selectBestMatches, selRun2, selRun1, sortedCands, potentialMatches,
    sortBySimDesc, sortByStart, List.insertionSort, List.orderedInsert,
    pass1Step, pass2Step, initSelState, lookupD, matchSim, simCell, normSq,
    dot, exEmbed, exSegsB, exDsB, List.enum, List.enumFrom, List.flatMap]

/-- The example `match` run succeeds with its formatted selector output. -/
lemma exMatch_ok :
    semanticMatch (fun q => q) exEmbed (72/100) 3 6 exSegsB exDsB =
      .ok (List.map (formatMatch exSegsB)
        (selectBestMatches (matchSim (fun q => q) exEmbed exSegsB exDsB)
          (72/100) 3 6 exSegsB exDsB)) := by
  unfold semanticMatch
  rw [if_neg (by simp [exSegsB]), if_neg (by simp [exDsB])]

/-- The formatted example candidate is in the example `match` output. -/
lemma exMatch_mem :
    formatMatch exSegsB ⟨0, "c", 1, 0, 1, "a", "d"⟩ ∈
      List.map (formatMatch exSegsB)
        (selectBestMatches (matchSim (fun q => q) exEmbed exSegsB exDsB)
          (72/100) 3 6 exSegsB exDsB) := by
  rw [exSel_eval]
  exact List.mem_map_of_mem _ (List.mem_singleton.mpr rfl)

/-- Witness for `match_insertion_span` at the example `match` run. -/
theorem match_insertion_span_witness :
    ∃ m ∈ selectBestMatches (matchSim (fun q => q) exEmbed exSegsB exDsB)
        (72/100) 3 6 exSegsB exDsB,
      ∃ seg, exSegsB.get? m.segment_idx = some seg ∧
        m.start_time = seg.start_time ∧ m.end_time = seg.end_time ∧
        (formatMatch exSegsB ⟨0, "c", 1, 0, 1, "a", "d"⟩).broll_id = m.broll_id ∧
        (formatMatch exSegsB ⟨0, "c", 1, 0, 1, "a", "d"⟩).start_sec =
          pyRound 2 seg.start_time ∧
        (formatMatch exSegsB ⟨0, "c", 1, 0, 1, "a", "d"⟩).duration_sec =
          pyRound 2 (seg.end_time - seg.start_time) :=
  match_insertion_span (fun q => q) exEmbed (72/100) 3 6 exSegsB exDsB
    _ _ exMatch_ok exMatch_mem

/-- Witness for `match_output_rounding` at the example `match` run. -/
theorem match_output_rounding_witness :
    (∃ k : ℤ, (formatMatch exSegsB ⟨0, "c", 1, 0, 1, "a", "d"⟩).start_sec =
      (k : ℚ) / 100) ∧
    (∃ k : ℤ, (formatMatch exSegsB ⟨0, "c", 1, 0, 1, "a", "d"⟩).duration_sec =
      (k : ℚ) / 100) ∧
    (∃ k : ℤ, (formatMatch exSegsB ⟨0, "c", 1, 0, 1, "a", "d"⟩).confidence =
      (k : ℚ) / 1000) ∧
    (∃ s : ℚ, 72/100 ≤ s ∧
      (formatMatch exSegsB ⟨0, "c", 1, 0, 1, "a", "d"⟩).confidence = pyRound 3 s) ∧
    72/100 - 1/2000 <
      (formatMatch exSegsB ⟨0, "c", 1, 0, 1, "a", "d"⟩).confidence :=
  match_output_rounding (fun q => q) exEmbed (72/100) 3 6 exSegsB exDsB
    _ _ exMatch_ok exMatch_mem

/-- The tiling relation: each interval starts exactly where the previous
one ends (no gaps, no overlaps). -/
def chained (l : List TLSeg) : Prop :=
  List.Chain' (fun a b => b.startT = a.endT) l

lemma chained_append_singleton {l : List TLSeg} {x : TLSeg}
    (hl : chained l) (hx : ∀ y, l.getLast? = some y → x.startT = y.endT) :
    chained (l ++ [x]) := by
  rw [chained, List.chain'_append]
  refine ⟨hl, List.chain'_singleton x, ?_⟩
  intro y hy z hz
  simp only [List.head?_cons, Option.mem_def, Option.some.injEq] at hz
  subst hz
  exact hx y hy

lemma head?_append_of_ne {l l' : List TLSeg} (h : l ≠ []) :
    (l ++ l').head? = l.head? := by
  cases l with
  | nil => exact absurd rfl h
  | cons a l => rfl

/-- The cutaway interval emitted for an insertion. -/
def brollSeg (segs : List Seg) (ins : Ins) : TLSeg :=
  TLSeg.broll (pyRound 2 ins.start_sec)
    (pyRound 2 (ins.start_sec + ins.duration_sec)) (pyRound 2 ins.duration_sec)
    ins.broll_id ins.reason ins.confidence
    (segs.find? (fun sg => |sg.start_time - ins.start_sec| < (1 : ℚ)/10))

/-- The narration filler interval from the cursor to an insertion start. -/
def arollSeg (segs : List Seg) (cur s : ℚ) : TLSeg :=
  TLSeg.aroll (pyRound 2 cur) (pyRound 2 s) (pyRound 2 (s - cur))
    (transcriptForRange segs cur s)

lemma tlStep_lt (segs : List Seg) (tl : List TLSeg) (cur : ℚ) (ins : Ins)
    (h : cur < ins.start_sec) :
    tlStep segs (tl, cur) ins =
      (tl ++ [arollSeg segs cur ins.start_sec, brollSeg segs ins],
       ins.start_sec + ins.duration_sec) := by
  unfold tlStep arollSeg brollSeg
  dsimp only
  rw [if_pos h, List.append_assoc]
  rfl

lemma tlStep_ge (segs : List Seg) (tl : List TLSeg) (cur : ℚ) (ins : Ins)
    (h : ¬ cur < ins.start_sec) :
    tlStep segs (tl, cur) ins =
      (tl ++ [brollSeg segs ins], ins.start_sec + ins.duration_sec) := by
  unfold tlStep brollSeg
  dsimp only
  rw [if_neg h]

/-- The chronological walk of `_create_timeline_segments`, specified: under
sorted non-overlapping insertions with nonnegative durations starting at or
after the cursor, the walk keeps the interval list chained, keeps its last
end at the (rounded) cursor, moves the cursor forward to the last processed
insertion's end, preserves the head (which, starting from an empty list,
begins at the rounded initial cursor), and keeps the list non-empty. -/
lemma tl_walk (segs : List Seg) :
    ∀ (l : List Ins) (tl : List TLSeg) (cur : ℚ),
      List.Chain' (fun a b => a.start_sec + a.duration_sec ≤ b.start_sec) l →
      (∀ i ∈ l, 0 ≤ i.duration_sec) →
      (∀ i, l.head? = some i → cur ≤ i.start_sec) →
      chained tl →
      (∀ x, tl.getLast? = some x → x.endT = pyRound 2 cur) →
      chained (l.foldl (tlStep segs) (tl, cur)).1 ∧
      (∀ x, (l.foldl (tlStep segs) (tl, cur)).1.getLast? = some x →
        x.endT = pyRound 2 (l.foldl (tlStep segs) (tl, cur)).2) ∧
      cur ≤ (l.foldl (tlStep segs) (tl, cur)).2 ∧
      (l = [] → l.foldl (tlStep segs) (tl, cur) = (tl, cur)) ∧
      (l ≠ [] → ∃ i ∈ l,
        (l.foldl (tlStep segs) (tl, cur)).2 = i.start_sec + i.duration_sec) ∧
      (tl ≠ [] → (l.foldl (tlStep segs) (tl, cur)).1.head? = tl.head?) ∧
      (tl = [] → l ≠ [] → ∀ x,
        (l.foldl (tlStep segs) (tl, cur)).1.head? = some x →
        x.startT = pyRound 2 cur) ∧
      (l ≠ [] → (l.foldl (tlStep segs) (tl, cur)).1 ≠ []) := by
  intro l
  induction l with
  | nil =>
      intro tl cur _ _ _ hctl hlast
      exact ⟨hctl, hlast, le_refl _, fun _ => rfl, fun h => absurd rfl h,
        fun _ => rfl, fun _ h => absurd rfl h, fun h => absurd rfl h⟩
  | cons ins l' ih =>
      intro tl cur hchain hdur hfirst hctl hlast
      have hcs : cur ≤ ins.start_sec := hfirst ins rfl
      have hd : 0 ≤ ins.duration_sec := hdur ins (List.mem_cons_self _ _)
      obtain ⟨tl2, hstep, hctl2, hlast2, hne2, hheadne, hheadnil⟩ :
          ∃ tl2,
            tlStep segs (tl, cur) ins =
              (tl2, ins.start_sec + ins.duration_sec) ∧
            chained tl2 ∧
            (∀ x, tl2.getLast? = some x →
              x.endT = pyRound 2 (ins.start_sec + ins.duration_sec)) ∧
            tl2 ≠ [] ∧
            (tl ≠ [] → tl2.head? = tl.head?) ∧
            (tl = [] → ∀ x, tl2.head? = some x → x.startT = pyRound 2 cur) := by
        by_cases hlt : cur < ins.start_sec
        · have hAB : tl ++ [arollSeg segs cur ins.start_sec, brollSeg segs ins] =
              (tl ++ [arollSeg segs cur ins.start_sec]) ++ [brollSeg segs ins] := by
            simp
          refine ⟨tl ++ [arollSeg segs cur ins.start_sec, brollSeg segs ins],
            tlStep_lt segs tl cur ins hlt, ?_, ?_, by simp, ?_, ?_⟩
          · rw [hAB]
            refine chained_append_singleton ?_ ?_
            · exact chained_append_singleton hctl
                (fun y hy => by simp [arollSeg, TLSeg.startT, hlast y hy])
            · intro y hy
              rw [List.getLast?_concat] at hy
              rw [← Option.some_inj.mp hy]
              simp [arollSeg, brollSeg, TLSeg.startT, TLSeg.endT]
          · intro x hx
            rw [hAB, List.getLast?_concat] at hx
            rw [← Option.some_inj.mp hx]
            simp [brollSeg, TLSeg.endT]
          · intro h
            exact head?_append_of_ne h
          · intro h x hx
            subst h
            simp only [List.nil_append, List.head?_cons,
              Option.some.injEq] at hx
            rw [← hx]
            simp [arollSeg, TLSeg.startT]
        · have heq : ins.start_sec = cur := le_antisymm (not_lt.mp hlt) hcs
          refine ⟨tl ++ [brollSeg segs ins],
            tlStep_ge segs tl cur ins hlt, ?_, ?_, by simp, ?_, ?_⟩
          · refine chained_append_singleton hctl ?_
            intro y hy
            rw [hlast y hy]
            simp [brollSeg, TLSeg.startT, heq]
          · intro x hx
            rw [List.getLast?_concat] at hx
            rw [← Option.some_inj.mp hx]
            simp [brollSeg, TLSeg.endT]
          · intro h
            exact head?_append_of_ne h
          · intro h x hx
            subst h
            simp only [List.nil_append, List.head?_cons,
              Option.some.injEq] at hx
            rw [← hx]
            simp [brollSeg, TLSeg.startT, heq]
      rw [List.foldl_cons, hstep]
      obtain ⟨hnext, hchain'⟩ := List.chain'_cons'.mp hchain
      have hdur' : ∀ i ∈ l', 0 ≤ i.duration_sec :=
        fun i hi => hdur i (List.mem_cons_of_mem _ hi)
      have hfirst' : ∀ i, l'.head? = some i →
          ins.start_sec + ins.duration_sec ≤ i.start_sec :=
        fun i hi => hnext i hi
      obtain ⟨W1, W2, W3, W4, W5, W6, W7, W8⟩ :=
        ih tl2 (ins.start_sec + ins.duration_sec) hchain' hdur' hfirst'
          hctl2 hlast2
      refine ⟨W1, W2, ?_, ?_, ?_, ?_, ?_, ?_⟩
      · have h1 : cur ≤ ins.start_sec + ins.duration_sec := by linarith
        exact le_trans h1 W3
      · intro h
        exact absurd h (List.cons_ne_nil _ _)
      · intro _
        by_cases hl' : l' = []
        · subst hl'
          refine ⟨ins, List.mem_cons_self _ _, ?_⟩
          rw [W4 rfl]
        · obtain ⟨i, hi, hv⟩ := W5 hl'
          exact ⟨i, List.mem_cons_of_mem _ hi, hv⟩
      · intro htl
        rw [W6 hne2]
        exact hheadne htl
      · intro htl _ x hx
        rw [W6 hne2] at hx
        exact hheadnil htl x hx
      · intro _
        by_cases hl' : l' = []
        · subst hl'
          rw [W4 rfl]
          exact hne2
        · exact W8 hl'

/-- C7 (amended): for a non-empty narration list and a NON-EMPTY insertion
list that, in chronological order, is non-overlapping, has nonnegative
durations, and is contained in `[0, total]`, the produced intervals tile:
the sequence is non-empty and chained (each interval starts exactly where
the previous ends), the first interval starts at `0.0`, and the last ends at
the 2-decimal rounding of the total narration duration (the total itself
whenever that is a 2-decimal value). -/
theorem timeline_tiles (segs : List Seg) (matchesIn : List Ins)
    (hsegs : segs ≠ []) (hne : matchesIn ≠ [])
    (hchain : List.Chain' (fun a b => a.start_sec + a.duration_sec ≤ b.start_sec)
      (sortIns matchesIn))
    (hb : ∀ m ∈ matchesIn, 0 ≤ m.start_sec ∧ 0 ≤ m.duration_sec ∧
      m.start_sec + m.duration_sec ≤ tlTotal segs) :
    createTimelineSegments segs matchesIn ≠ [] ∧
    chained (createTimelineSegments segs matchesIn) ∧
    (∀ x, (createTimelineSegments segs matchesIn).head? = some x →
      x.startT = 0) ∧
    (∀ x, (createTimelineSegments segs matchesIn).getLast? = some x →
      x.endT = pyRound 2 (tlTotal segs)) := by
  have hins_ne : sortIns matchesIn ≠ [] := by
    intro h
    have := congrArg List.length h
    rw [sortIns, List.length_insertionSort] at this
    exact hne (List.length_eq_zero.mp this)
  have hmem : ∀ i ∈ sortIns matchesIn, i ∈ matchesIn := by
    intro i hi
    rw [sortIns, List.mem_insertionSort] at hi
    exact hi
  have hzero : pyRound 2 0 = 0 := by norm_num [pyRound]
  obtain ⟨W1, W2, W3, W4, W5, W6, W7, W8⟩ :=
    tl_walk segs (sortIns matchesIn) [] 0 hchain
      (fun i hi => (hb i (hmem i hi)).2.1)
      (fun i hi => (hb i (hmem i (List.mem_of_mem_head? hi))).1)
      List.chain'_nil
      (fun x hx => by simp at hx)
  set st := (sortIns matchesIn).foldl (tlStep segs) ([], 0) with hst
  have hstne : st.1 ≠ [] := W8 hins_ne
  have hstle : st.2 ≤ tlTotal segs := by
    obtain ⟨i, hi, hv⟩ := W5 hins_ne
    rw [hv]
    exact (hb i (hmem i hi)).2.2
  have hout : createTimelineSegments segs matchesIn =
      (if st.2 < tlTotal segs then
        st.1 ++ [TLSeg.aroll (pyRound 2 st.2) (pyRound 2 (tlTotal segs))
          (pyRound 2 (tlTotal segs - st.2))
          (transcriptForRange segs st.2 (tlTotal segs))]
      else st.1) := by
    unfold createTimelineSegments
    rw [if_neg (by rw [List.isEmpty_iff]; exact hsegs)]
    dsimp only
    rw [if_neg (by rw [List.isEmpty_iff]; exact hins_ne)]
  rw [hout]
  by_cases hlt : st.2 < tlTotal segs
  · rw [if_pos hlt]
    refine ⟨by simp, ?_, ?_, ?_⟩
    · exact chained_append_singleton W1
        (fun y hy => by rw [W2 y hy]; rfl)
    · intro x hx
      rw [head?_append_of_ne hstne] at hx
      rw [W7 rfl hins_ne x hx, hzero]
    · intro x hx
      rw [List.getLast?_concat] at hx
      rw [← Option.some_inj.mp hx]
      rfl
  · rw [if_neg hlt]
    have heq : st.2 = tlTotal segs := le_antisymm hstle (not_lt.mp hlt)
    refine ⟨hstne, W1, ?_, ?_⟩
    · intro x hx
      rw [W7 rfl hins_ne x hx, hzero]
    · intro x hx
      rw [W2 x hx, heq]

/-- C7 (counterexample): the empty insertion list is vacuously
non-overlapping and contained in the narration span, yet on one segment
`[0, 10]` the Timeline Assembler emits the duplicated full-span interval,
so consecutive intervals do not meet (`interval[1].start = 0 ≠ 10 =
interval[0].end`): the claimed tiling fails. -/
theorem timeline_tiles_empty_cex :
    ¬ chained (createTimelineSegments [⟨0, 10, "t"⟩] []) := by
  have h : createTimelineSegments [⟨0, 10, "t"⟩] [] =
      [TLSeg.aroll 0 10 10 "t", TLSeg.aroll 0 10 10 "t"] := by
    norm_num [createTimelineSegments, sortIns, List.insertionSort, tlTotal,
      tlStep, transcriptForRange, pyRound, intercalate_single]
  rw [h, chained]
  intro hc
  have := List.chain'_cons.mp hc
  simp [TLSeg.startT, TLSeg.endT] at this

/-- Witness for `timeline_tiles`: one segment `[0,10]` and one insertion
`[2,5]`. -/
theorem timeline_tiles_witness :
    createTimelineSegments [⟨0, 10, "t"⟩] [⟨2, 3, "c", "r", 1⟩] ≠ [] ∧
    chained (createTimelineSegments [⟨0, 10, "t"⟩] [⟨2, 3, "c", "r", 1⟩]) ∧
    (∀ x, (createTimelineSegments [⟨0, 10, "t"⟩] [⟨2, 3, "c", "r", 1⟩]).head? =
      some x → x.startT = 0) ∧
    (∀ x, (createTimelineSegments [⟨0, 10, "t"⟩]
        [⟨2, 3, "c", "r", 1⟩]).getLast? = some x →
      x.endT = pyRound 2 (tlTotal [⟨0, 10, "t"⟩])) :=
  timeline_tiles [⟨0, 10, "t"⟩] [⟨2, 3, "c", "r", 1⟩]
    (by simp) (by simp)
    (by
      rw [show sortIns [⟨2, 3, "c", "r", 1⟩] = [⟨2, 3, "c", "r", 1⟩] from rfl]
      exact List.chain'_singleton _)
    (by
      intro m hm
      rw [List.mem_singleton] at hm
      subst hm
      norm_num [tlTotal])
